import Mathlib

/-!
# Verification of the Smithy HTTP routing engine

Shallow embedding of `rust-runtime/aws-smithy-http-server/src/routing/mod.rs`:
the `Router` data type, its construction from an iterator of
`(service, RequestSpec)` pairs (a stable sort by descending specificity rank),
and its dispatch loop (`Service::call`).

The `RequestSpec` matching engine (the `request_spec` submodule) is declared
and used by `routing/mod.rs` but its source file is not part of this tree;
its behaviour (specificity rank, path matching with greedy segments, query
constraint matching, combined verdict) is modelled from the specification, as
flagged on each such definition.
-/

namespace SmithyRouting

/-- One segment of a `RequestSpec` URI pattern, as in
`routing/request_spec.rs` (`PathSegment::Literal`, `::Label`, `::Greedy`,
used by the tests in `routing/mod.rs`). -/
inductive PathSegment where
  | literal (s : String)
  | label
  | greedy
deriving DecidableEq

/-- One query constraint of a `RequestSpec`, as in `routing/request_spec.rs`
(`QuerySegment::Key`, `::KeyValue`, used by the tests in `routing/mod.rs`). -/
inductive QuerySegment where
  | key (k : String)
  | keyValue (k v : String)
deriving DecidableEq

/-- An endpoint signature: HTTP method token, ordered path pattern, and query
constraints, mirroring `RequestSpec::from_parts(method, path_segments,
query_segments)`. -/
structure RequestSpec where
  method : String
  pathSegments : List PathSegment
  querySegments : List QuerySegment
deriving DecidableEq

/-- The possible verdicts of testing one `RequestSpec` against one request
(`request_spec::Match::Yes`, `::MethodNotAllowed`, `::No`). -/
inductive Match where
  | yes
  | methodNotAllowed
  | no
deriving DecidableEq

/-- An incoming HTTP request, reduced to the three fields the router consumes:
method token, (percent-decoded) path, and raw query string. -/
structure Request where
  method : String
  path : String
  query : String
deriving DecidableEq

/-- Split a character list on a separator character; `n` separators yield
`n + 1` (possibly empty) chunks. -/
def splitOnChar (c : Char) : List Char → List (List Char)
  | [] => [[]]
  | x :: xs =>
    if x = c then [] :: splitOnChar c xs
    else
      match splitOnChar c xs with
      | [] => [[x]]
      | chunk :: chunks => (x :: chunk) :: chunks

/-- Build a request from a method and an URI, splitting the URI at the first
question mark, mirroring the `req(method, uri)` test helper. -/
def mkReq (m uri : String) : Request :=
  let p := uri.data.takeWhile (fun c => c ≠ '?')
  if p.length = uri.data.length then { method := m, path := uri, query := "" }
  else
    { method := m
      path := String.mk p
      query := String.mk (uri.data.drop (p.length + 1)) }

/-- Modelled from the spec: the request path is split on slashes with empty
segments discarded (missing source `routing/request_spec.rs`). -/
def pathSegmentsOf (p : String) : List String :=
  ((splitOnChar '/' p.data).filter (fun s => s ≠ [])).map String.mk

/-- Modelled from the spec: the raw query string is parsed into an ordered
sequence of key / optional-value pairs preserving duplicates; a part without
an equals sign yields a value-absent pair (missing source
`routing/request_spec.rs`). -/
def queryPairsOf (q : String) : List (String × Option String) :=
  ((splitOnChar '&' q.data).filter (fun part => part ≠ [])).map fun part =>
    let k := part.takeWhile (fun c => c ≠ '=')
    if k.length = part.length then (String.mk part, none)
    else (String.mk k, some (String.mk (part.drop (k.length + 1))))

/-- Whether a non-greedy pattern segment accepts one request segment: a
literal requires exact equality, a label accepts any segment. (A greedy
segment never reaches this comparison for well-formed specs, which contain at
most one greedy; it is treated as accepting.) -/
def segMatches : PathSegment → String → Bool
  | .literal t, s => t = s
  | .label, _ => true
  | .greedy, _ => true

/-- Position-by-position comparison of a greedy-free pattern against request
segments; fails unless the lengths agree. -/
def fixedMatch : List PathSegment → List String → Bool
  | [], [] => true
  | p :: ps, s :: ss => segMatches p s && fixedMatch ps ss
  | _, _ => false

/-- Split a path pattern at its first greedy segment, returning the fixed
front and back parts around it, or `none` when no greedy segment occurs. -/
def splitAtGreedy : List PathSegment → Option (List PathSegment × List PathSegment)
  | [] => none
  | PathSegment.greedy :: rest => some ([], rest)
  | p :: rest =>
    match splitAtGreedy rest with
    | none => none
    | some (front, back) => some (p :: front, back)

/-- Modelled from the spec: path matching (missing source
`routing/request_spec.rs`). Without a greedy segment the lengths must agree
and segments are compared position-by-position; with a greedy segment the
fixed front matches the leading request segments, the fixed back matches the
trailing ones, and the greedy slot absorbs everything in between, at least
one segment. -/
def pathMatches (path : List PathSegment) (segs : List String) : Bool :=
  match splitAtGreedy path with
  | none => fixedMatch path segs
  | some (front, back) =>
    decide (front.length + back.length + 1 ≤ segs.length) &&
    fixedMatch front (segs.take front.length) &&
    fixedMatch back (segs.drop (segs.length - back.length))

/-- Modelled from the spec: satisfaction of a single query constraint by the
parsed request pairs (missing source `routing/request_spec.rs`). `key k`
needs some pair with key `k`, any value including empty or absent;
`keyValue k v` needs some pair with key `k` and value exactly `v`. -/
def querySegmentMatches (pairs : List (String × Option String)) : QuerySegment → Bool
  | .key k => pairs.any fun p => p.1 = k
  | .keyValue k v => pairs.any fun p => p.1 = k && p.2 = some v

/-- Modelled from the spec: the constraint set is satisfied iff every
constraint in it is individually satisfied (missing source
`routing/request_spec.rs`). -/
def queryMatches (constraints : List QuerySegment) (pairs : List (String × Option String)) : Bool :=
  constraints.all (querySegmentMatches pairs)

/-- Modelled from the spec: the combined verdict `RequestSpec::matches`
(missing source `routing/request_spec.rs`): path failure is `no` before
anything else is considered, then query failure is `no`, then a method
difference is `methodNotAllowed`, and otherwise `yes`. -/
def RequestSpec.matches (spec : RequestSpec) (req : Request) : Match :=
  if pathMatches spec.pathSegments (pathSegmentsOf req.path) then
    if queryMatches spec.querySegments (queryPairsOf req.query) then
      if spec.method = req.method then Match.yes else Match.methodNotAllowed
    else Match.no
  else Match.no

/-- Number of literal segments of a path pattern. -/
def literalCount (p : List PathSegment) : Nat :=
  (p.filter fun s => match s with | .literal _ => true | _ => false).length

/-- Number of greedy segments of a path pattern. -/
def greedyCount (p : List PathSegment) : Nat :=
  (p.filter fun s => match s with | .greedy => true | _ => false).length

/-- Number of label segments of a path pattern. -/
def labelCount (p : List PathSegment) : Nat :=
  (p.filter fun s => match s with | .label => true | _ => false).length

/-- Modelled from the spec: `a` ranks strictly above `b` (missing source
`routing/request_spec.rs`, `RequestSpec::rank`). Lexicographic: more query
constraints first, then more literal segments, then fewer greedy segments,
then fewer label segments. -/
def RankHigher (a b : RequestSpec) : Prop :=
  b.querySegments.length < a.querySegments.length ∨
    (a.querySegments.length = b.querySegments.length ∧
      (literalCount b.pathSegments < literalCount a.pathSegments ∨
        (literalCount a.pathSegments = literalCount b.pathSegments ∧
          (greedyCount a.pathSegments < greedyCount b.pathSegments ∨
            (greedyCount a.pathSegments = greedyCount b.pathSegments ∧
              labelCount a.pathSegments < labelCount b.pathSegments)))))

/-- Predicate stating that `a` and `b` have identical specificity rank. -/
def RankEq (a b : RequestSpec) : Prop :=
  a.querySegments.length = b.querySegments.length ∧
    literalCount a.pathSegments = literalCount b.pathSegments ∧
    greedyCount a.pathSegments = greedyCount b.pathSegments ∧
    labelCount a.pathSegments = labelCount b.pathSegments

instance (a b : RequestSpec) : Decidable (RankHigher a b) := by
  unfold RankHigher; exact inferInstance

instance (a b : RequestSpec) : Decidable (RankEq a b) := by
  unfold RankEq; exact inferInstance

/-- A route-table entry: an opaque handler handle (the boxed service,
identified by a number) paired with its `RequestSpec`, mirroring the element
type of `Router::routes`. -/
abbrev Entry := Nat × RequestSpec

/-- Insert an entry into an already rank-sorted list, after every entry that
ranks strictly above it and before the rest. -/
def sortInsert (x : Entry) : List Entry → List Entry
  | [] => [x]
  | y :: ys => if RankHigher y.2 x.2 then y :: sortInsert x ys else x :: y :: ys

/-- Stable insertion sort by descending rank; an earlier entry is placed
before any equally ranked later one. This is the behaviour of
`routes.sort_by_key(|(_route, request_spec)| Reverse(request_spec.rank()))`,
Rust's `sort_by_key` being stable. -/
def sortByRankDesc : List Entry → List Entry
  | [] => []
  | x :: xs => sortInsert x (sortByRankDesc xs)

/-- The router: a vector of `(handler, RequestSpec)` routes
(`Router::routes`). -/
structure Router where
  routes : List Entry
deriving DecidableEq

/-- Mirrors `Router::from_box_clone_service_iter`: collect the `(service, spec)`
pairs and sort them once by descending specificity rank. -/
def Router.fromBoxCloneServiceIter (entries : List Entry) : Router :=
  { routes := sortByRankDesc entries }

/-- The terminal outcomes of a dispatch call: hand the request to a matched
handler, or synthesize a `405 METHOD_NOT_ALLOWED` / `404 NOT_FOUND` response. -/
inductive DispatchResult where
  | dispatched (handler : Nat)
  | methodNotAllowed
  | notFound
deriving DecidableEq

/-- The dispatch loop of `Router::call`: walk the routes in table order
carrying the `method_not_allowed` flag; the first `Match::Yes` dispatches
immediately, `Match::MethodNotAllowed` sets the flag and continues,
`Match::No` continues; on exhaustion the flag picks the status code. -/
def callLoop (req : Request) : List Entry → Bool → DispatchResult
  | [], mna => if mna then DispatchResult.methodNotAllowed else DispatchResult.notFound
  | e :: rest, mna =>
    match e.2.matches req with
    | Match.yes => DispatchResult.dispatched e.1
    | Match.methodNotAllowed => callLoop req rest true
    | Match.no => callLoop req rest mna

/-- Mirrors `Router::call` as a pure function from the router and the request to the
dispatch outcome; the loop starts with `method_not_allowed = false`. -/
def Router.call (r : Router) (req : Request) : DispatchResult :=
  callLoop req r.routes false

/-- Mirrors `Router::call` in state-passing form, mirroring its `&mut self`
signature: the body reads `self.routes`, mutates only the local
`method_not_allowed` flag (threaded through `callLoop`), and never assigns to
`self`, so the router comes back unchanged. -/
def Router.callMut (r : Router) (req : Request) : DispatchResult × Router :=
  (callLoop req r.routes false, r)

/-- Mirrors `Router::layer`: wrap every handler by the same transformation, keeping
each route's `RequestSpec` and the table order intact. -/
def Router.layer (r : Router) (f : Nat → Nat) : Router :=
  { routes := r.routes.map fun e => (f e.1, e.2) }

/-- Path pattern of the `MiddleGreedy` route of the `simple_routing` test. -/
def mgPath : List PathSegment :=
  [PathSegment.literal "mg", PathSegment.greedy, PathSegment.literal "z"]

/-- The `MiddleGreedy` signature of the `simple_routing` test: `GET`, path
`[Literal "mg", Greedy, Literal "z"]`, no query constraints. -/
def mgSpec : RequestSpec :=
  { method := "GET", pathSegments := mgPath, querySegments := [] }

/-- The `B1` signature of the `basic_pattern_conflict_avoidance` test: `GET`,
path `[Literal "b", Greedy]`, no query constraints. -/
def specB1 : RequestSpec :=
  { method := "GET"
    pathSegments := [PathSegment.literal "b", PathSegment.greedy]
    querySegments := [] }

/-- The `B2` signature of the `basic_pattern_conflict_avoidance` test: `GET`,
path `[Literal "b", Greedy]`, query constraint `Key "q"`. -/
def specB2 : RequestSpec :=
  { method := "GET"
    pathSegments := [PathSegment.literal "b", PathSegment.greedy]
    querySegments := [QuerySegment.key "q"] }

/-- A minimal signature (`GET /x`) used for concrete instantiations. -/
def specX : RequestSpec :=
  { method := "GET", pathSegments := [PathSegment.literal "x"], querySegments := [] }

/-- A second minimal signature (`GET /a`) used for concrete instantiations. -/
def specA : RequestSpec :=
  { method := "GET", pathSegments := [PathSegment.literal "a"], querySegments := [] }

/-- The key constrained by a query segment. -/
def queryKey : QuerySegment → String
  | .key k => k
  | .keyValue k _ => k

/-- Whether a match verdict is `methodNotAllowed`. -/
def isMethodNotAllowed : Match → Bool
  | Match.methodNotAllowed => true
  | _ => false

/-- The rank order is total: two signatures compare strictly one way, the
other way, or have identical rank. -/
theorem rank_trichotomy (a b : RequestSpec) :
    RankHigher a b ∨ RankEq a b ∨ RankHigher b a := by
  unfold RankHigher RankEq
  omega

/-- When `a` does not rank strictly above `b`, then `b` ranks at least as
high as `a`. -/
theorem rankGe_of_not_rankHigher {a b : RequestSpec} (h : ¬ RankHigher a b) :
    RankHigher b a ∨ RankEq b a := by
  unfold RankHigher RankEq at *
  omega

/-- Transitivity of ranking at least as high. -/
theorem rankGe_trans {a b c : RequestSpec} (h1 : RankHigher a b ∨ RankEq a b)
    (h2 : RankHigher b c ∨ RankEq b c) : RankHigher a c ∨ RankEq a c := by
  unfold RankHigher RankEq at *
  omega

/-- A signature ranking strictly above a rank-equal sibling of `s` is not
itself rank-equal to `s`. -/
theorem not_rankEq_of_rankHigher {x y s : RequestSpec} (h1 : RankHigher y x)
    (h2 : RankEq x s) : ¬ RankEq y s := by
  unfold RankHigher RankEq at *
  omega

theorem mem_sortInsert (x z : Entry) :
    ∀ l : List Entry, z ∈ sortInsert x l ↔ z = x ∨ z ∈ l := by
  intro l
  induction l with
  | nil => simp [sortInsert]
  | cons y ys ih =>
    simp only [sortInsert]
    by_cases h : RankHigher y.2 x.2
    · rw [if_pos h]
      simp only [List.mem_cons, ih]
      tauto
    · rw [if_neg h]
      simp only [List.mem_cons]

theorem sortInsert_perm (x : Entry) :
    ∀ l : List Entry, List.Perm (sortInsert x l) (x :: l) := by
  intro l
  induction l with
  | nil => simp [sortInsert]
  | cons y ys ih =>
    simp only [sortInsert]
    by_cases h : RankHigher y.2 x.2
    · rw [if_pos h]
      exact (ih.cons y).trans (List.Perm.swap x y ys)
    · rw [if_neg h]

theorem sortByRankDesc_perm :
    ∀ l : List Entry, List.Perm (sortByRankDesc l) l := by
  intro l
  induction l with
  | nil => simp [sortByRankDesc]
  | cons x xs ih =>
    simp only [sortByRankDesc]
    exact (sortInsert_perm x (sortByRankDesc xs)).trans (ih.cons x)

theorem pairwise_sortInsert (x : Entry) :
    ∀ l : List Entry,
      (l.Pairwise fun a b => RankHigher a.2 b.2 ∨ RankEq a.2 b.2) →
      ((sortInsert x l).Pairwise fun a b => RankHigher a.2 b.2 ∨ RankEq a.2 b.2) := by
  intro l
  induction l with
  | nil => intro _; simp [sortInsert]
  | cons y ys ih =>
    intro h
    rw [List.pairwise_cons] at h
    obtain ⟨hy, hys⟩ := h
    simp only [sortInsert]
    by_cases hc : RankHigher y.2 x.2
    · rw [if_pos hc, List.pairwise_cons]
      refine ⟨?_, ih hys⟩
      intro z hz
      rcases (mem_sortInsert x z ys).mp hz with rfl | hz
      · exact Or.inl hc
      · exact hy z hz
    · rw [if_neg hc, List.pairwise_cons]
      have hxy : RankHigher x.2 y.2 ∨ RankEq x.2 y.2 := rankGe_of_not_rankHigher hc
      refine ⟨?_, List.pairwise_cons.mpr ⟨hy, hys⟩⟩
      intro z hz
      rcases List.mem_cons.mp hz with rfl | hz
      · exact hxy
      · exact rankGe_trans hxy (hy z hz)

theorem pairwise_sortByRankDesc :
    ∀ l : List Entry,
      ((sortByRankDesc l).Pairwise fun a b => RankHigher a.2 b.2 ∨ RankEq a.2 b.2) := by
  intro l
  induction l with
  | nil => simp [sortByRankDesc]
  | cons x xs ih =>
    simp only [sortByRankDesc]
    exact pairwise_sortInsert x (sortByRankDesc xs) ih

theorem filter_sortInsert_of_rankEq (s : RequestSpec) (x : Entry) (hx : RankEq x.2 s) :
    ∀ l : List Entry,
      (sortInsert x l).filter (fun e => decide (RankEq e.2 s)) =
        x :: l.filter (fun e => decide (RankEq e.2 s)) := by
  intro l
  induction l with
  | nil => simp [sortInsert, hx]
  | cons y ys ih =>
    simp only [sortInsert]
    by_cases hc : RankHigher y.2 x.2
    · rw [if_pos hc]
      have hy : ¬ RankEq y.2 s := not_rankEq_of_rankHigher hc hx
      simp only [List.filter_cons, decide_eq_true_eq]
      rw [if_neg (by simpa using hy), if_neg (by simpa using hy)]
      exact ih
    · rw [if_neg hc]
      simp only [List.filter_cons, decide_eq_true_eq]
      rw [if_pos hx]

theorem filter_sortInsert_of_not_rankEq (s : RequestSpec) (x : Entry) (hx : ¬ RankEq x.2 s) :
    ∀ l : List Entry,
      (sortInsert x l).filter (fun e => decide (RankEq e.2 s)) =
        l.filter (fun e => decide (RankEq e.2 s)) := by
  intro l
  induction l with
  | nil => simp [sortInsert, hx]
  | cons y ys ih =>
    simp only [sortInsert]
    by_cases hc : RankHigher y.2 x.2
    · rw [if_pos hc]
      simp only [List.filter_cons]
      rw [ih]
    · rw [if_neg hc]
      simp only [List.filter_cons, decide_eq_true_eq]
      rw [if_neg hx]

theorem filter_sortByRankDesc (s : RequestSpec) :
    ∀ l : List Entry,
      (sortByRankDesc l).filter (fun e => decide (RankEq e.2 s)) =
        l.filter (fun e => decide (RankEq e.2 s)) := by
  intro l
  induction l with
  | nil => simp [sortByRankDesc]
  | cons x xs ih =>
    simp only [sortByRankDesc]
    by_cases hx : RankEq x.2 s
    · rw [filter_sortInsert_of_rankEq s x hx, ih]
      simp only [List.filter_cons, decide_eq_true_eq]
      rw [if_pos hx]
    · rw [filter_sortInsert_of_not_rankEq s x hx, ih]
      simp only [List.filter_cons, decide_eq_true_eq]
      rw [if_neg hx]

theorem callLoop_of_no_yes (req : Request) :
    ∀ (l : List Entry) (mna : Bool), (∀ x ∈ l, x.2.matches req ≠ Match.yes) →
      callLoop req l mna =
        if mna || l.any (fun x => isMethodNotAllowed (x.2.matches req)) then
          DispatchResult.methodNotAllowed
        else DispatchResult.notFound := by
  intro l
  induction l with
  | nil => intro mna _; simp [callLoop]
  | cons e rest ih =>
    intro mna h
    have he := h e (List.mem_cons_self e rest)
    simp only [callLoop]
    cases hm : e.2.matches req with
    | yes => exact absurd hm he
    | methodNotAllowed =>
      rw [ih true fun x hx => h x (List.mem_cons_of_mem e hx)]
      have hfe : isMethodNotAllowed (e.2.matches req) = true := by rw [hm]; rfl
      simp only [List.any_cons, hfe]
      simp
    | no =>
      rw [ih mna fun x hx => h x (List.mem_cons_of_mem e hx)]
      have hfe : isMethodNotAllowed (e.2.matches req) = false := by rw [hm]; rfl
      simp only [List.any_cons, hfe]
      rw [Bool.false_or]

theorem callLoop_first_yes (req : Request) :
    ∀ (front : List Entry) (e : Entry) (back : List Entry) (mna : Bool),
      (∀ x ∈ front, x.2.matches req ≠ Match.yes) → e.2.matches req = Match.yes →
      callLoop req (front ++ e :: back) mna = DispatchResult.dispatched e.1 := by
  intro front
  induction front with
  | nil =>
    intro e back mna _ he
    simp [callLoop, he]
  | cons y ys ih =>
    intro e back mna h he
    have hy := h y (List.mem_cons_self y ys)
    simp only [List.cons_append, callLoop]
    cases hm : y.2.matches req with
    | yes => exact absurd hm hy
    | methodNotAllowed => exact ih e back true (fun x hx => h x (List.mem_cons_of_mem y hx)) he
    | no => exact ih e back mna (fun x hx => h x (List.mem_cons_of_mem y hx)) he

theorem callLoop_unique_yes (req : Request) :
    ∀ (l : List Entry) (x : Entry) (mna : Bool), x ∈ l → x.2.matches req = Match.yes →
      (∀ y ∈ l, y.2.matches req = Match.yes → y = x) →
      callLoop req l mna = DispatchResult.dispatched x.1 := by
  intro l
  induction l with
  | nil => intro x mna hx _ _; exact absurd hx (List.not_mem_nil x)
  | cons e rest ih =>
    intro x mna hx hxy huniq
    simp only [callLoop]
    cases hm : e.2.matches req with
    | yes =>
      have : e = x := huniq e (List.mem_cons_self e rest) hm
      rw [this]
    | methodNotAllowed =>
      have hx' : x ∈ rest := by
        rcases List.mem_cons.mp hx with rfl | hx'
        · rw [hxy] at hm; exact absurd hm (by simp)
        · exact hx'
      exact ih x true hx' hxy fun y hy hyy => huniq y (List.mem_cons_of_mem e hy) hyy
    | no =>
      have hx' : x ∈ rest := by
        rcases List.mem_cons.mp hx with rfl | hx'
        · rw [hxy] at hm; exact absurd hm (by simp)
        · exact hx'
      exact ih x mna hx' hxy fun y hy hyy => huniq y (List.mem_cons_of_mem e hy) hyy

theorem any_congr_perm {α : Type} {l l' : List α} (h : List.Perm l l') (f : α → Bool) :
    l.any f = l'.any f := by
  induction h with
  | nil => rfl
  | cons x _ ih => simp [List.any_cons, ih]
  | swap x y l =>
    simp only [List.any_cons]
    rw [← Bool.or_assoc, ← Bool.or_assoc, Bool.or_comm (f y) (f x)]
  | trans _ _ ih1 ih2 => exact ih1.trans ih2

theorem splitAtGreedy_eq_some :
    ∀ (path front back : List PathSegment), splitAtGreedy path = some (front, back) →
      path = front ++ PathSegment.greedy :: back := by
  intro path
  induction path with
  | nil => intro front back h; exact absurd h (by simp [splitAtGreedy])
  | cons p ps ih =>
    intro front back h
    cases p with
    | greedy =>
      simp only [splitAtGreedy, Option.some.injEq, Prod.mk.injEq] at h
      obtain ⟨hf, hb⟩ := h
      rw [← hf, ← hb]
      simp
    | literal s =>
      simp only [splitAtGreedy] at h
      cases hs : splitAtGreedy ps with
      | none => rw [hs] at h; exact absurd h (by simp)
      | some fb =>
        obtain ⟨f, b⟩ := fb
        rw [hs] at h
        simp only [Option.some.injEq, Prod.mk.injEq] at h
        obtain ⟨hf, hb⟩ := h
        rw [← hf, ← hb]
        simp [ih f b hs]
    | label =>
      simp only [splitAtGreedy] at h
      cases hs : splitAtGreedy ps with
      | none => rw [hs] at h; exact absurd h (by simp)
      | some fb =>
        obtain ⟨f, b⟩ := fb
        rw [hs] at h
        simp only [Option.some.injEq, Prod.mk.injEq] at h
        obtain ⟨hf, hb⟩ := h
        rw [← hf, ← hb]
        simp [ih f b hs]

theorem splitAtGreedy_none_no_greedy :
    ∀ path : List PathSegment, splitAtGreedy path = none → greedyCount path = 0 := by
  intro path
  induction path with
  | nil => intro _; rfl
  | cons p ps ih =>
    intro h
    cases p with
    | greedy => exact absurd h (by simp [splitAtGreedy])
    | literal s =>
      simp only [splitAtGreedy] at h
      cases hs : splitAtGreedy ps with
      | none => simp only [greedyCount, List.filter_cons]; exact ih hs
      | some fb => rw [hs] at h; exact absurd h (by simp)
    | label =>
      simp only [splitAtGreedy] at h
      cases hs : splitAtGreedy ps with
      | none => simp only [greedyCount, List.filter_cons]; exact ih hs
      | some fb => rw [hs] at h; exact absurd h (by simp)

theorem any_filter_of_imp {α : Type} (l : List α) (p q : α → Bool)
    (h : ∀ a, q a = true → p a = true) : (l.filter p).any q = l.any q := by
  induction l with
  | nil => rfl
  | cons a as ih =>
    simp only [List.filter_cons]
    by_cases hp : p a = true
    · rw [if_pos hp]
      simp only [List.any_cons, ih]
    · rw [if_neg hp]
      have hq : q a = false := by
        cases hqq : q a with
        | false => rfl
        | true => exact absurd (h a hqq) hp
      simp only [List.any_cons, ih, hq, Bool.false_or]

theorem all_congr_mem {α : Type} (l : List α) (f g : α → Bool)
    (h : ∀ a ∈ l, f a = g a) : l.all f = l.all g := by
  induction l with
  | nil => rfl
  | cons a as ih =>
    simp only [List.all_cons]
    rw [h a (List.mem_cons_self a as), ih fun x hx => h x (List.mem_cons_of_mem a hx)]

/-- C1: the route table built by `Router::from_box_clone_service_iter` is in
rank order (descending specificity), and the dispatch loop of `Router::call`
stops at the first entry whose match verdict is `Yes` (FullMatch) and
dispatches to that entry's handler; the result does not depend on the entries
after it, so no later entry is examined after the first FullMatch. -/
theorem first_full_match_wins :
    (∀ entries : List Entry,
      (Router.fromBoxCloneServiceIter entries).routes.Pairwise fun a b =>
        RankHigher a.2 b.2 ∨ RankEq a.2 b.2) ∧
    (∀ (front : List Entry) (e : Entry) (req : Request),
      (∀ x ∈ front, x.2.matches req ≠ Match.yes) → e.2.matches req = Match.yes →
      ∀ back : List Entry,
        Router.call { routes := front ++ e :: back } req = DispatchResult.dispatched e.1) := by
  constructor
  · intro entries
    exact pairwise_sortByRankDesc entries
  · intro front e req h he back
    exact callLoop_first_yes req front e back false h he

/-- Witness for C1: a table whose first entry does not match, second fully
matches, third is never reached. -/
theorem first_full_match_wins_witness :
    Router.call { routes := [(1, specA), (2, specX), (3, specB1)] } (mkReq "GET" "/x") =
      DispatchResult.dispatched 2 :=
  first_full_match_wins.2 [(1, specA)] (2, specX) (mkReq "GET" "/x")
    (by decide) (by decide) [(3, specB1)]

/-- C2: when no entry yields FullMatch, `Router::call` returns (as an
ordinary `DispatchResult` value, the codomain being total — no exceptional
channel exists) `methodNotAllowed` when some entry yielded `MethodNotAllowed`
during the scan and `notFound` otherwise. -/
theorem no_full_match_status :
    ∀ (r : Router) (req : Request), (∀ x ∈ r.routes, x.2.matches req ≠ Match.yes) →
      r.call req =
        if r.routes.any (fun x => isMethodNotAllowed (x.2.matches req)) then
          DispatchResult.methodNotAllowed
        else DispatchResult.notFound := by
  intro r req h
  unfold Router.call
  rw [callLoop_of_no_yes req r.routes false h, Bool.false_or]

/-- Witness for C2: a method-mismatching table yields `methodNotAllowed`. -/
theorem no_full_match_status_witness :
    Router.call { routes := [(1, specA), (2, specX)] } (mkReq "POST" "/x") =
      if [((1 : Nat), specA), (2, specX)].any
          (fun x => isMethodNotAllowed (x.2.matches (mkReq "POST" "/x"))) then
        DispatchResult.methodNotAllowed
      else DispatchResult.notFound :=
  no_full_match_status { routes := [(1, specA), (2, specX)] } (mkReq "POST" "/x") (by decide)

/-- C3: a signature with more query constraints ranks strictly above one with
fewer, regardless of path shape; concretely, with the two `Literal "b" +
Greedy` signatures of the conflict-avoidance test, the request
`GET /b/foo?q=baz` dispatches to the one requiring `q` under either
registration order, never to the query-less one. -/
theorem query_count_rank_priority :
    (∀ a b : RequestSpec, b.querySegments.length < a.querySegments.length → RankHigher a b) ∧
    Router.call (Router.fromBoxCloneServiceIter [(1, specB1), (2, specB2)])
        (mkReq "GET" "/b/foo?q=baz") = DispatchResult.dispatched 2 ∧
    Router.call (Router.fromBoxCloneServiceIter [(2, specB2), (1, specB1)])
        (mkReq "GET" "/b/foo?q=baz") = DispatchResult.dispatched 2 := by
  refine ⟨?_, by decide, by decide⟩
  intro a b h
  exact Or.inl h

/-- Witness for C3: the query-constrained signature ranks strictly above its
query-less sibling. -/
theorem query_count_rank_priority_witness : RankHigher specB2 specB1 :=
  query_count_rank_priority.1 specB2 specB1 (by decide)

/-- C4: the built route table is sorted by descending rank with a stable
sort: it is pairwise rank-descending, a permutation of the registered
entries, and entries of any fixed rank appear in their original registration
order (the rank-equal sublist is untouched); and no operation after
construction reorders it — a dispatch call hands the router back unchanged
and `layer` preserves the spec sequence. -/
theorem route_table_sorted_stable :
    ∀ entries : List Entry,
      ((Router.fromBoxCloneServiceIter entries).routes.Pairwise fun a b =>
          RankHigher a.2 b.2 ∨ RankEq a.2 b.2) ∧
      List.Perm (Router.fromBoxCloneServiceIter entries).routes entries ∧
      (∀ s : RequestSpec,
        (Router.fromBoxCloneServiceIter entries).routes.filter
            (fun e => decide (RankEq e.2 s)) =
          entries.filter (fun e => decide (RankEq e.2 s))) ∧
      (∀ req : Request,
        ((Router.fromBoxCloneServiceIter entries).callMut req).2 =
          Router.fromBoxCloneServiceIter entries) ∧
      (∀ f : Nat → Nat,
        ((Router.fromBoxCloneServiceIter entries).layer f).routes.map Prod.snd =
          (Router.fromBoxCloneServiceIter entries).routes.map Prod.snd) := by
  intro entries
  refine ⟨pairwise_sortByRankDesc entries, sortByRankDesc_perm entries,
    fun s => filter_sortByRankDesc s entries, fun req => rfl, fun f => ?_⟩
  simp [Router.layer, List.map_map, Function.comp_def]

/-- Witness for C4: the stability filter at a concrete two-entry table. -/
theorem route_table_sorted_stable_witness :
    (Router.fromBoxCloneServiceIter [(1, specB1), (2, specB2)]).routes.filter
        (fun e => decide (RankEq e.2 specB1)) =
      [((1 : Nat), specB1), (2, specB2)].filter (fun e => decide (RankEq e.2 specB1)) :=
  (route_table_sorted_stable [(1, specB1), (2, specB2)]).2.2.1 specB1

/-- C5 counterexample: two rank-equal entries with distinct handlers over the
same signature; the two registration orders are permutations of one another
yet dispatch the same request to different handlers. -/
theorem registration_order_counterexample :
    List.Perm [((1 : Nat), specX), (2, specX)] [(2, specX), (1, specX)] ∧
    Router.call (Router.fromBoxCloneServiceIter [(1, specX), (2, specX)])
        (mkReq "GET" "/x") = DispatchResult.dispatched 1 ∧
    Router.call (Router.fromBoxCloneServiceIter [(2, specX), (1, specX)])
        (mkReq "GET" "/x") = DispatchResult.dispatched 2 ∧
    DispatchResult.dispatched 1 ≠ DispatchResult.dispatched 2 :=
  ⟨List.Perm.swap (2, specX) (1, specX) [], by decide, by decide, by decide⟩

/-- C5 amended: for every request on which at most one registered entry
yields FullMatch (in particular for non-overlapping signature sets), building
the route table from any permutation of the entries yields the identical
dispatch decision. -/
theorem permutation_invariant_dispatch :
    ∀ (l1 l2 : List Entry) (req : Request), List.Perm l1 l2 →
      (∀ x ∈ l1, ∀ y ∈ l1,
        x.2.matches req = Match.yes → y.2.matches req = Match.yes → x = y) →
      Router.call (Router.fromBoxCloneServiceIter l1) req =
        Router.call (Router.fromBoxCloneServiceIter l2) req := by
  intro l1 l2 req hperm huniq
  by_cases hy : ∃ x ∈ l1, x.2.matches req = Match.yes
  · obtain ⟨x, hx, hxy⟩ := hy
    have r1 : callLoop req (sortByRankDesc l1) false = DispatchResult.dispatched x.1 :=
      callLoop_unique_yes req (sortByRankDesc l1) x false
        ((sortByRankDesc_perm l1).mem_iff.mpr hx) hxy
        fun y hy1 hyy => huniq y ((sortByRankDesc_perm l1).mem_iff.mp hy1) x hx hyy hxy
    have r2 : callLoop req (sortByRankDesc l2) false = DispatchResult.dispatched x.1 :=
      callLoop_unique_yes req (sortByRankDesc l2) x false
        ((sortByRankDesc_perm l2).mem_iff.mpr (hperm.mem_iff.mp hx)) hxy
        fun y hy2 hyy =>
          huniq y (hperm.mem_iff.mpr ((sortByRankDesc_perm l2).mem_iff.mp hy2)) x hx hyy hxy
    exact r1.trans r2.symm
  · have hno : ∀ x ∈ l1, x.2.matches req ≠ Match.yes := fun x hx h => hy ⟨x, hx, h⟩
    have e1 := callLoop_of_no_yes req (sortByRankDesc l1) false
      fun x hx => hno x ((sortByRankDesc_perm l1).mem_iff.mp hx)
    have e2 := callLoop_of_no_yes req (sortByRankDesc l2) false
      fun x hx => hno x (hperm.mem_iff.mpr ((sortByRankDesc_perm l2).mem_iff.mp hx))
    have hany : (sortByRankDesc l1).any (fun x => isMethodNotAllowed (x.2.matches req)) =
        (sortByRankDesc l2).any (fun x => isMethodNotAllowed (x.2.matches req)) :=
      any_congr_perm
        ((sortByRankDesc_perm l1).trans (hperm.trans (sortByRankDesc_perm l2).symm)) _
    show callLoop req (sortByRankDesc l1) false = callLoop req (sortByRankDesc l2) false
    rw [e1, e2, hany]

/-- Witness for C5 amended: two non-overlapping entries dispatched equally
under both registration orders. -/
theorem permutation_invariant_dispatch_witness :
    Router.call (Router.fromBoxCloneServiceIter [(1, specA), (2, specX)]) (mkReq "GET" "/x") =
      Router.call (Router.fromBoxCloneServiceIter [(2, specX), (1, specA)]) (mkReq "GET" "/x") :=
  permutation_invariant_dispatch [(1, specA), (2, specX)] [(2, specX), (1, specA)]
    (mkReq "GET" "/x") (by decide) (by decide)

/-- C6: a path with exactly one greedy segment matches only requests with at
least as many segments as the path (the greedy slot absorbs at least one
segment); concretely, for path `[Literal "mg", Greedy, Literal "z"]`,
requests `/mg/a/z` and `/mg/a/b/c/d/z` match while `/mg/z`, `/mg` and
`/mg/q` do not. -/
theorem greedy_absorbs_at_least_one :
    (∀ (path : List PathSegment) (segs : List String), greedyCount path = 1 →
        pathMatches path segs = true → path.length ≤ segs.length) ∧
    mgSpec.matches (mkReq "GET" "/mg/a/z") = Match.yes ∧
    mgSpec.matches (mkReq "GET" "/mg/a/b/c/d/z") = Match.yes ∧
    mgSpec.matches (mkReq "GET" "/mg/z") = Match.no ∧
    mgSpec.matches (mkReq "GET" "/mg") = Match.no ∧
    mgSpec.matches (mkReq "GET" "/mg/q") = Match.no := by
  refine ⟨?_, by decide, by decide, by decide, by decide, by decide⟩
  intro path segs hg hm
  cases hs : splitAtGreedy path with
  | none =>
    rw [splitAtGreedy_none_no_greedy path hs] at hg
    exact absurd hg (by simp)
  | some fb =>
    obtain ⟨front, back⟩ := fb
    have hfb := splitAtGreedy_eq_some path front back hs
    unfold pathMatches at hm
    rw [hs] at hm
    simp only [Bool.and_eq_true, decide_eq_true_eq] at hm
    obtain ⟨⟨hlen, -⟩, -⟩ := hm
    subst hfb
    simp only [List.length_append, List.length_cons]
    omega

/-- Witness for C6: the `MiddleGreedy` path pattern matched against the
segments of `/mg/a/z` obeys the length bound. -/
theorem greedy_absorbs_at_least_one_witness :
    mgPath.length ≤ (pathSegmentsOf "/mg/a/z").length :=
  greedy_absorbs_at_least_one.1 mgPath (pathSegmentsOf "/mg/a/z") (by decide) (by decide)

/-- C7: `Key k` is satisfied iff some parsed pair has key `k` (any value,
empty or absent included); `KeyValue k v` is satisfied iff some pair has key
`k` and value exactly `v`; the constraint set is satisfied iff every
constraint in it is; and restricting the request pairs to the keys
referenced by some constraint never changes the outcome, so unreferenced
request keys cannot cause a mismatch. -/
theorem query_constraint_semantics :
    (∀ (k : String) (pairs : List (String × Option String)),
        (querySegmentMatches pairs (QuerySegment.key k) = true ↔ ∃ p ∈ pairs, p.1 = k)) ∧
    (∀ (k v : String) (pairs : List (String × Option String)),
        (querySegmentMatches pairs (QuerySegment.keyValue k v) = true ↔
          ∃ p ∈ pairs, p.1 = k ∧ p.2 = some v)) ∧
    (∀ (constraints : List QuerySegment) (pairs : List (String × Option String)),
        (queryMatches constraints pairs = true ↔
          ∀ c ∈ constraints, querySegmentMatches pairs c = true)) ∧
    (∀ (constraints : List QuerySegment) (pairs : List (String × Option String)),
        queryMatches constraints
            (pairs.filter fun p => constraints.any fun c => decide (queryKey c = p.1)) =
          queryMatches constraints pairs) := by
  refine ⟨?_, ?_, ?_, ?_⟩
  · intro k pairs
    simp [querySegmentMatches, List.any_eq_true]
  · intro k v pairs
    simp [querySegmentMatches, List.any_eq_true]
  · intro constraints pairs
    simp [queryMatches, List.all_eq_true]
  · intro constraints pairs
    unfold queryMatches
    apply all_congr_mem
    intro c hc
    cases c with
    | key k =>
      apply any_filter_of_imp
      intro p hp
      simp only [decide_eq_true_eq] at hp
      refine (List.any_eq_true).mpr ⟨QuerySegment.key k, hc, ?_⟩
      simp [queryKey, hp]
    | keyValue k v =>
      apply any_filter_of_imp
      intro p hp
      simp only [Bool.and_eq_true, decide_eq_true_eq] at hp
      refine (List.any_eq_true).mpr ⟨QuerySegment.keyValue k v, hc, ?_⟩
      simp [queryKey, hp.1]

/-- Witness for C7: a value-absent pair satisfies `Key "baz"`. -/
theorem query_constraint_semantics_witness :
    querySegmentMatches [("foo", some "bar"), ("baz", none)] (QuerySegment.key "baz") = true :=
  (query_constraint_semantics.1 "baz" [("foo", some "bar"), ("baz", none)]).mpr
    ⟨("baz", none), by decide, rfl⟩

/-- C8: the combined verdict of a signature against a request: `no` whenever
the path fails (for every method and query, which are therefore irrelevant),
`no` whenever the query constraints fail, `methodNotAllowed` exactly when
path and query succeed but the method differs, and `yes` exactly when all
three succeed. -/
theorem match_verdict_characterisation :
    ∀ (spec : RequestSpec) (req : Request),
      (pathMatches spec.pathSegments (pathSegmentsOf req.path) = false →
        ∀ (m q : String),
          spec.matches { method := m, path := req.path, query := q } = Match.no) ∧
      (queryMatches spec.querySegments (queryPairsOf req.query) = false →
        spec.matches req = Match.no) ∧
      (spec.matches req = Match.methodNotAllowed ↔
        pathMatches spec.pathSegments (pathSegmentsOf req.path) = true ∧
        queryMatches spec.querySegments (queryPairsOf req.query) = true ∧
        spec.method ≠ req.method) ∧
      (spec.matches req = Match.yes ↔
        pathMatches spec.pathSegments (pathSegmentsOf req.path) = true ∧
        queryMatches spec.querySegments (queryPairsOf req.query) = true ∧
        spec.method = req.method) := by
  intro spec req
  refine ⟨?_, ?_, ?_, ?_⟩
  · intro hp m q
    unfold RequestSpec.matches
    simp [hp]
  · intro hq
    unfold RequestSpec.matches
    simp [hq]
  · unfold RequestSpec.matches
    split_ifs with h1 h2 h3 <;> simp_all
  · unfold RequestSpec.matches
    split_ifs with h1 h2 h3 <;> simp_all

/-- Witness for C8: a path failure yields `no` regardless of method and
query, and a pure method difference yields `methodNotAllowed`. -/
theorem match_verdict_characterisation_witness :
    specX.matches { method := "POST", path := "/a", query := "zz=1" } = Match.no ∧
    specX.matches (mkReq "PATCH" "/x") = Match.methodNotAllowed := by
  constructor
  · exact (match_verdict_characterisation specX (mkReq "GET" "/a")).1 (by decide) "POST" "zz=1"
  · exact ((match_verdict_characterisation specX (mkReq "PATCH" "/x")).2.2.1).mpr
      ⟨by decide, by decide, by decide⟩

/-- C9: a dispatch call leaves the route table unchanged (the router coming
out of the state-passing `call` is the one that went in), so an immediately
repeated dispatch of the same request returns the same decision. -/
theorem dispatch_preserves_table :
    ∀ (r : Router) (req : Request),
      ((r.callMut req).2).routes = r.routes ∧
      (((r.callMut req).2).callMut req).1 = (r.callMut req).1 :=
  fun _ _ => ⟨rfl, rfl⟩

/-- C10: the router built from the empty collection responds `notFound`
(404) to every request. -/
theorem empty_router_not_found :
    ∀ req : Request,
      Router.call (Router.fromBoxCloneServiceIter []) req = DispatchResult.notFound :=
  fun _ => rfl

end SmithyRouting
